import Mathlib

/-!
Verification of the `prepare-commit-msg` hook of davidalpert/go-githooks.

The message-transformation core (the `PrepareCommitMsgOptions` methods
`prependBranchName` and `appendCoauthorMarkup` of the current variant,
together with argument parsing, commit-source classification and
commit-message loading) is embedded shallowly over `List Char`,
mirroring the Go byte-slice operations.
-/

/-- Whitespace recognized by Go `bytes.TrimSpace` / `unicode.IsSpace`
(restricted to the Latin-1 range: space, TAB, LF, VT, FF, CR, NEL, NBSP). -/
def isGoSpace (c : Char) : Bool :=
  c = ' ' || c = '\t' || c = '\n' || c = Char.ofNat 11 || c = Char.ofNat 12 ||
  c = '\r' || c = Char.ofNat 133 || c = Char.ofNat 160

/-- Leading-whitespace trim, the left half of Go `bytes.TrimSpace`. -/
def trimLeft (s : List Char) : List Char :=
  s.dropWhile isGoSpace

/-- Trailing-whitespace trim, the right half of Go `bytes.TrimSpace`. -/
def trimRight : List Char → List Char
  | [] => []
  | c :: cs =>
    match trimRight cs with
    | [] => if isGoSpace c then [] else [c]
    | r => c :: r

/-- Go `bytes.TrimSpace`: drop leading and trailing whitespace. -/
def trimSpace (s : List Char) : List Char :=
  trimRight (trimLeft s)

/-- One step of Go `fmt.Sprintf` with a single string argument: walks the
format string, substituting the argument for the first `%s` verb and
producing Go's error markers for repeated, malformed or missing verbs.
Returns the produced text plus whether the argument was consumed. -/
def goSprintf1Aux (arg : List Char) : List Char → Bool → List Char × Bool
  | [], used => ([], used)
  | ['%'], used => (("%!(NOVERB)").toList, used)
  | '%' :: v :: rest, used =>
    if v = '%' then
      let (r, u) := goSprintf1Aux arg rest used
      ('%' :: r, u)
    else if v = 's' then
      if used then
        let (r, u) := goSprintf1Aux arg rest used
        (("%!s(MISSING)").toList ++ r, u)
      else
        let (r, u) := goSprintf1Aux arg rest true
        (arg ++ r, u)
    else
      if used then
        let (r, u) := goSprintf1Aux arg rest used
        ('%' :: '!' :: v :: ("(MISSING)").toList ++ r, u)
      else
        let (r, u) := goSprintf1Aux arg rest true
        ('%' :: '!' :: v :: ("(string=").toList ++ arg ++ ')' :: r, u)
  | c :: rest, used =>
    let (r, u) := goSprintf1Aux arg rest used
    (c :: r, u)

/-- Go `fmt.Sprintf(template, arg)` for one string argument, appending
Go's `%!(EXTRA ...)` marker when the argument is never consumed. -/
def goSprintf1 (template arg : List Char) : List Char :=
  let (r, u) := goSprintf1Aux arg template false
  if u then r else r ++ ("%!(EXTRA string=").toList ++ arg ++ [')']

/-- `prependBranchName` of the current variant: the branch-prefix
injection `injectBranchPrefix(message, template, branchName)`.
Empty branch is a no-op; otherwise the message is trimmed, a message
that is only a git comment block gets a protecting blank line, and the
(trimmed) formatted prefix is added when missing, the whole followed by
a normalized trailing blank line. -/
def prependBranchName (msg template branch : List Char) : List Char :=
  if branch = [] then msg
  else
    let sp := goSprintf1 template branch
    let branchPfx := trimSpace sp
    let t0 := trimSpace msg
    let trimmedMsg := if (['#']).isPrefixOf t0 then '\n' :: '\n' :: t0 else t0
    if branchPfx.isPrefixOf trimmedMsg then
      trimmedMsg ++ ['\n', '\n']
    else
      sp ++ [' '] ++ trimmedMsg ++ ['\n', '\n']

/-- The literal text of the regex `(?im)^co-authored-by: ` trigger. -/
def coTrigger : List Char :=
  ("co-authored-by: ").toList

/-- Case-insensitive literal match of a (lowercase) pattern against the
head of the input, returning the remainder on success. -/
def matchCaseInsensitive : List Char → List Char → Option (List Char)
  | [], s => some s
  | _ :: _, [] => none
  | p :: ps, c :: cs =>
    if c.toLower = p then matchCaseInsensitive ps cs else none

/-- Consume characters up to and including the first `>` (the regex tail
`[^>]*>` after one non-`>` character has been consumed); `none` when no
`>` follows. A negated class `[^>]` in Go RE2 also matches newlines, so
this scan may cross line boundaries. -/
def dropThroughGt : List Char → Option (List Char)
  | [] => none
  | c :: cs => if c = '>' then some cs else dropThroughGt cs

/-- Attempt the regex `(?im)^co-authored-by: [^>]+>` at the current
position (which must be a line start): the case-insensitive trigger,
then at least one non-`>` character, then everything through the first
`>`. Returns the rest of the input after the match. -/
def matchCoauthorAt (s : List Char) : Option (List Char) :=
  match matchCaseInsensitive coTrigger s with
  | none => none
  | some rest =>
    match rest with
    | [] => none
    | d :: ds => if d = '>' then none else dropThroughGt ds

/-- Fueled scan implementing `re.ReplaceAll(msg, "")` for the pattern
`(?im)^co-authored-by: [^>]+>`: at every line start of the original
input, a leftmost match is deleted and scanning resumes after it; all
other characters are copied. Every step consumes at least one input
character, so fuel equal to the input length is always sufficient. -/
def stripGo : Nat → Bool → List Char → List Char
  | _, _, [] => []
  | 0, _, s => s
  | Nat.succ fuel, atLineStart, c :: cs =>
    if atLineStart then
      match matchCoauthorAt (c :: cs) with
      | some rest => stripGo fuel false rest
      | none => c :: stripGo fuel (c = '\n') cs
    else c :: stripGo fuel (c = '\n') cs

/-- Delete every match of `(?im)^co-authored-by: [^>]+>` from the
message (Go `re.ReplaceAll(b, empty)`). -/
def stripCoauthorLines (s : List Char) : List Char :=
  stripGo s.length true s

/-- The literal comment-block marker `"# "` searched for by
`strings.Index`. -/
def hashSpace : List Char :=
  ['#', ' ']

/-- Go `strings.Index`: index of the first occurrence of `needle`, or
`none` (Go `-1`) when absent. -/
def indexOfSub (needle : List Char) : List Char → Option Nat
  | [] => if needle.isPrefixOf [] then some 0 else none
  | c :: t =>
    if needle.isPrefixOf (c :: t) then some 0
    else (indexOfSub needle t).map Nat.succ

/-- `appendCoauthorMarkup` of the current variant: the co-author trailer
injection `injectCoauthors(message, coauthorBlock)`. An empty block
returns the message untouched; otherwise existing trailer matches are
stripped, the message is trimmed, and the trimmed block is spliced in
before the comment block (located at the first `"# "`) or appended. -/
def appendCoauthorMarkup (msg coauthors : List Char) : List Char :=
  if coauthors = [] then msg
  else
    let cleanedB := trimSpace (stripCoauthorLines msg)
    let coauthorsB := trimSpace coauthors
    match indexOfSub hashSpace cleanedB with
    | some commentPos =>
      let gitMessage := trimSpace (cleanedB.take commentPos)
      let gitComments := cleanedB.drop commentPos
      gitMessage ++ '\n' :: '\n' :: (coauthorsB ++ '\n' :: '\n' :: gitComments)
    | none =>
      cleanedB ++ '\n' :: '\n' :: (coauthorsB ++ '\n' :: '\n' :: [])

/-- Split a character list into its lines at `\n` (the list of lines is
never empty; a trailing newline yields a final empty line). -/
def splitLines : List Char → List (List Char)
  | [] => [[]]
  | c :: cs =>
    if c = '\n' then [] :: splitLines cs
    else
      match splitLines cs with
      | [] => [[c]]
      | l :: ls => (c :: l) :: ls

/-- The commit-message source classification of `env_helpers.go`. -/
inductive CommitMessageSource
  | unknownSource
  | emptySource
  | messageSource
  | templateSource
  | mergeSource
  | squashSource
  | commitSource
deriving DecidableEq

/-- `CommitMessageSourceFromString`: map git's source argument to the
classification; anything unrecognized is `unknownSource`. -/
def CommitMessageSourceFromString (s : String) : CommitMessageSource :=
  if s = "" then CommitMessageSource.emptySource
  else if s = "message" then CommitMessageSource.messageSource
  else if s = "template" then CommitMessageSource.templateSource
  else if s = "merge" then CommitMessageSource.mergeSource
  else if s = "squash" then CommitMessageSource.squashSource
  else if s = "commit" then CommitMessageSource.commitSource
  else CommitMessageSource.unknownSource

/-- The `String()` method of `CommitMessageSource`. -/
def CommitMessageSource.toString : CommitMessageSource → String
  | CommitMessageSource.emptySource => ""
  | CommitMessageSource.messageSource => "message"
  | CommitMessageSource.templateSource => "template"
  | CommitMessageSource.mergeSource => "merge"
  | CommitMessageSource.squashSource => "squash"
  | CommitMessageSource.commitSource => "commit"
  | CommitMessageSource.unknownSource => "unknown"

/-- Outcome of `Prepare`'s positional-argument handling: the arity error,
a Go runtime panic from an out-of-bounds index, or parsed options. -/
inductive PrepareOutcome
  | argError (numArgs : Nat)
  | indexPanic
  | parsed (file : String) (src : CommitMessageSource) (obj : Option String)
deriving DecidableEq

/-- The positional-argument part of `Prepare` in the current variant:
guard `1 <= len(args) <= 3`, read `args[0]`, classify `args[1]` when
present, and unconditionally read `args[2]` whenever the classification
is `CommitSource` — an out-of-bounds access (modelled as `indexPanic`)
when only two arguments were given. -/
def Prepare (args : List String) : PrepareOutcome :=
  let numArgs := args.length
  if 1 ≤ numArgs ∧ numArgs ≤ 3 then
    let file := args.headD ""
    let src :=
      if numArgs > 1 then CommitMessageSourceFromString (args.getD 1 "")
      else CommitMessageSource.unknownSource
    if src = CommitMessageSource.commitSource then
      match args[2]? with
      | some obj => PrepareOutcome.parsed file src (some obj)
      | none => PrepareOutcome.indexPanic
    else PrepareOutcome.parsed file src none
  else PrepareOutcome.argError numArgs

/-- The possible failures of `ioutil.ReadFile`: the not-exist error
recognized by `os.IsNotExist`, or any other read error. -/
inductive FileReadError
  | notExist
  | other (description : List Char)

/-- `readCommitMessageFromDisk`, with the outcome of `ioutil.ReadFile`
supplied as data: a missing file degrades to the empty message, any
other error is reported, and a successful read returns the bytes. -/
def readCommitMessageFromDisk (file msg : List Char) (err : Option FileReadError) :
    Except (List Char) (List Char) :=
  match err with
  | some FileReadError.notExist => Except.ok []
  | some (FileReadError.other d) =>
    Except.error (("could not read ").toList ++ file ++ (": ").toList ++ d)
  | none => Except.ok msg

/-! ## Concrete inputs used by counterexamples and witnesses -/

/-- The standard template `"[%s]"`. -/
def tmplStd : List Char := ("[%s]").toList

/-- The branch name `GH-123` of spec Example 1. -/
def branchGH : List Char := ("GH-123").toList

/-- A message whose only line both matches the trailer pattern and
continues past the first `>` with a second copy of the trailer. -/
def msgRemnant : List Char :=
  ("Co-authored-by: Zoe <z>Co-authored-by: Zoe <z>\n").toList

/-- The canonical single trailer re-supplied by the hook. -/
def trailerZoe : List Char := ("Co-authored-by: Zoe <z>").toList

/-- A message ending in a `# ` comment line that contains a `>`, preceded
by a trailer line with no `>` of its own. -/
def msgEatenComment : List Char :=
  ("Co-authored-by: a\n# note > done").toList

/-- The final comment line of `msgEatenComment`. -/
def commentEaten : List Char := ("# note > done").toList

/-- A well-formed co-author block. -/
def coZoe : List Char := ("Co-authored-by: Zoe <z@s.o>").toList

/-! ## Claims C4 through C9 and the counterexamples -/

/-- C6: for the empty message, template `[%s]` and branch `GH-123`,
`injectBranchPrefix` returns exactly the bytes `"[GH-123] \n\n"`:
formatted prefix, a space, the empty trimmed body, and the normalized
trailing blank line. -/
theorem c6_example1 :
    prependBranchName [] tmplStd branchGH = ("[GH-123] \n\n").toList := by
  decide

/-- C7: for the message `single line msg` and a single well-formed
co-author line, `injectCoauthors` returns exactly the trimmed body, a
blank line, the trimmed co-author block, and a trailing blank line. -/
theorem c7_example3 :
    appendCoauthorMarkup (("single line msg").toList)
        (("Co-authored-by: Zoe Washburne <zoe.washburne@serenity.org>").toList) =
      ("single line msg\n\nCo-authored-by: Zoe Washburne <zoe.washburne@serenity.org>\n\n").toList := by
  decide

/-- C8: the two-element argument list `[file, "commit"]` passes the
arity guard `1 <= numArgs <= 3` of `Prepare`, is classified as
`commitSource`, and then `args[2]` is read out of bounds: `Prepare` does
not return cleanly but panics. -/
theorem c8_commit_arity_panic :
    Prepare ["f", "commit"] = PrepareOutcome.indexPanic := by
  decide

/-- C4: a missing commit-message file is not an error — loading yields
the empty message — while any other read failure is reported as an
error, and a successful read returns the file bytes. -/
theorem c4_missing_file_ok :
    ∀ (file msg d : List Char),
      readCommitMessageFromDisk file msg (some FileReadError.notExist) = Except.ok [] ∧
      (∃ e, readCommitMessageFromDisk file msg (some (FileReadError.other d)) =
        Except.error e) ∧
      readCommitMessageFromDisk file msg none = Except.ok msg := by
  intro file msg d
  exact ⟨rfl, ⟨_, rfl⟩, rfl⟩

/-- C9: the source classification round-trips on all six recognized git
source strings, and every other string is classified `unknownSource`,
whose `toString` is `"unknown"`. -/
theorem c9_source_roundtrip :
    (∀ s ∈ (["", "message", "template", "merge", "squash", "commit"] : List String),
      CommitMessageSource.toString (CommitMessageSourceFromString s) = s) ∧
    (∀ s : String,
      s ∉ (["", "message", "template", "merge", "squash", "commit"] : List String) →
      CommitMessageSourceFromString s = CommitMessageSource.unknownSource ∧
        CommitMessageSource.toString (CommitMessageSourceFromString s) = "unknown") := by
  constructor
  · decide
  · intro s hs
    simp only [List.mem_cons, List.not_mem_nil, or_false, not_or] at hs
    obtain ⟨h1, h2, h3, h4, h5, h6⟩ := hs
    refine ⟨?_, ?_⟩ <;>
      simp [CommitMessageSourceFromString, CommitMessageSource.toString,
        h1, h2, h3, h4, h5, h6]

/-- C9 witness: instantiating the round-trip theorem at the recognized
string `merge` and at the unrecognized string `amend`. -/
theorem c9_source_roundtrip_witness :
    CommitMessageSource.toString (CommitMessageSourceFromString "merge") = "merge" ∧
    (CommitMessageSourceFromString "amend" = CommitMessageSource.unknownSource ∧
      CommitMessageSource.toString (CommitMessageSourceFromString "amend") = "unknown") :=
  ⟨c9_source_roundtrip.1 "merge" (by decide), c9_source_roundtrip.2 "amend" (by decide)⟩

/-- C5 counterexample: the whitespace-only co-author block `" "` is
empty after trimming, yet the message is not returned unchanged — the
non-empty block triggers stripping, trimming and re-joining. -/
theorem c5_counterexample :
    trimSpace ((" ").toList) = [] ∧
    appendCoauthorMarkup (("x").toList) ((" ").toList) ≠ ("x").toList := by
  decide

/-- C5 amended: only the literally empty co-author block is a guaranteed
no-op: `injectCoauthors(m, "") = m` byte for byte, for every message. -/
theorem c5_empty_coauthors_noop :
    ∀ m : List Char, appendCoauthorMarkup m [] = m := by
  intro m
  simp [appendCoauthorMarkup]

/-- C1 counterexample: with the standard template `[%s]`, branch
`GH-123` and the empty message, one application yields
`"[GH-123] \n\n"` but a second application trims the body to
`"[GH-123]"`, finds the prefix already present, and yields
`"[GH-123]\n\n"` — the space after the prefix is lost, so
`injectBranchPrefix` is not idempotent. -/
theorem c1_counterexample :
    prependBranchName (prependBranchName [] tmplStd branchGH) tmplStd branchGH ≠
      prependBranchName [] tmplStd branchGH := by
  decide

/-- C2 counterexample: a matching trailer line that continues past its
first `>` with a second copy of the trailer is only stripped through the
first `>`; the remnant survives, so re-supplying the same trailer leaves
two occurrences of it in the output, not exactly one. -/
theorem c2_counterexample :
    ¬ (splitLines (appendCoauthorMarkup msgRemnant trailerZoe)).count trailerZoe = 1 := by
  decide

/-- C3 counterexample: the trailer-stripping regex may cross line
boundaries, so for a message ending in the comment line
`"# note > done"` preceded by a trailer with no `>` of its own, the
match swallows the comment text through its `>` and the comment line
does not appear in the output of `injectCoauthors` at all. -/
theorem c3_counterexample :
    ¬ commentEaten <:+: appendCoauthorMarkup msgEatenComment coZoe := by
  decide

/-! ## Lemmas about trimming -/

theorem trimRight_cons (c : Char) (cs : List Char) :
    trimRight (c :: cs) =
      match trimRight cs with
      | [] => if isGoSpace c then [] else [c]
      | r => c :: r := rfl

theorem trimLeft_cons_of_not {c : Char} (s : List Char) (h : isGoSpace c = false) :
    trimLeft (c :: s) = c :: s := by
  simp [trimLeft, List.dropWhile_cons, h]

theorem trimLeft_append_head {c : Char} (s t : List Char) (h : isGoSpace c = false) :
    trimLeft ((c :: s) ++ t) = (c :: s) ++ t := by
  simpa using trimLeft_cons_of_not (s ++ t) h

theorem trimRight_append_of_eq_nil (s t : List Char) (h : trimRight t = []) :
    trimRight (s ++ t) = trimRight s := by
  induction s with
  | nil => simpa using h
  | cons c cs ih =>
    rw [List.cons_append, trimRight_cons, ih, ← trimRight_cons]

theorem trimRight_append_of_ne_nil (s t : List Char) (h : trimRight t ≠ []) :
    trimRight (s ++ t) = s ++ trimRight t := by
  induction s with
  | nil => rfl
  | cons c cs ih =>
    rw [List.cons_append, trimRight_cons, ih]
    cases htr : cs ++ trimRight t with
    | nil => exact absurd (List.append_eq_nil.mp htr).2 h
    | cons d ds => simp [htr]

theorem trimRight_idem (s : List Char) : trimRight (trimRight s) = trimRight s := by
  induction s with
  | nil => rfl
  | cons c cs ih =>
    rw [trimRight_cons]
    cases htr : trimRight cs with
    | nil =>
      by_cases hsp : isGoSpace c
      · simp [hsp, trimRight]
      · simp [hsp, trimRight]
    | cons d ds =>
      rw [htr] at ih
      rw [trimRight_cons, ih]

/-! ## Lemmas about byte-prefix tests and last characters -/

theorem isPreIffPre {l₁ l₂ : List Char} : l₁.isPrefixOf l₂ = true ↔ l₁ <+: l₂ :=
  List.isPrefixOf_iff_prefix

theorem isPre_append_self (s t : List Char) : s.isPrefixOf (s ++ t) = true :=
  isPreIffPre.mpr (List.prefix_append s t)

theorem isPre_cons_of_ne {c d : Char} (cs ds : List Char) (h : c ≠ d) :
    (c :: cs).isPrefixOf (d :: ds) = false := by
  simp [List.isPrefixOf, h]

theorem isPre_hash_iff {t0 : List Char} :
    (['#']).isPrefixOf t0 = true ↔ ∃ r, t0 = '#' :: r := by
  cases t0 with
  | nil => simp [List.isPrefixOf]
  | cons c cs =>
    constructor
    · intro h
      simp only [List.isPrefixOf, Bool.and_eq_true, beq_iff_eq] at h
      exact ⟨cs, by rw [h.1]⟩
    · rintro ⟨r, hr⟩
      cases hr
      simp [List.isPrefixOf]

theorem trimRight_last (s : List Char) :
    trimRight s = [] ∨ ∃ c, (trimRight s).getLast? = some c ∧ isGoSpace c = false := by
  induction s with
  | nil => exact Or.inl rfl
  | cons c cs ih =>
    rw [trimRight_cons]
    cases htr : trimRight cs with
    | nil =>
      by_cases hsp : isGoSpace c
      · exact Or.inl (by simp [hsp])
      · refine Or.inr ⟨c, ?_, by simpa using hsp⟩
        simp [hsp]
    | cons d ds =>
      rcases ih with h | ⟨e, he, hesp⟩
      · rw [htr] at h; exact absurd h (by simp)
      · rw [htr] at he
        exact Or.inr ⟨e, by rw [List.getLast?_cons_cons] at *; exact he ▸ rfl, hesp⟩

theorem getLast_append_of_ne_nil {T : List Char} (y : List Char) {c : Char}
    (h : T.getLast? = some c) : (y ++ T).getLast? = some c := by
  rw [List.getLast?_append, h]
  rfl

/-! ## Lemmas about line splitting -/

theorem splitLines_ne_nil (s : List Char) : splitLines s ≠ [] := by
  cases s with
  | nil => simp [splitLines]
  | cons c cs =>
    by_cases h : c = '\n'
    · simp [splitLines, h]
    · simp only [splitLines, if_neg h]
      cases splitLines cs <;> simp

theorem splitLines_cons_newline (b : List Char) :
    splitLines ('\n' :: b) = [] :: splitLines b := by
  simp [splitLines]

theorem splitLines_append_newline (a b : List Char) :
    splitLines (a ++ '\n' :: b) = splitLines a ++ splitLines b := by
  induction a with
  | nil => simp [splitLines]
  | cons c cs ih =>
    by_cases h : c = '\n'
    · subst h
      rw [List.cons_append, splitLines_cons_newline, splitLines_cons_newline, ih,
        List.cons_append]
    · rw [List.cons_append]
      simp only [splitLines, if_neg h, ih]
      cases hcs : splitLines cs with
      | nil => exact absurd hcs (splitLines_ne_nil cs)
      | cons l ls => simp

theorem splitLines_head_pre {s l : List Char} {ls : List (List Char)}
    (h : splitLines s = l :: ls) : l <+: s := by
  induction s generalizing l ls with
  | nil =>
    simp only [splitLines, List.cons.injEq] at h
    exact h.1 ▸ List.nil_prefix
  | cons c cs ih =>
    by_cases hc : c = '\n'
    · subst hc
      rw [splitLines_cons_newline, List.cons.injEq] at h
      exact h.1 ▸ List.nil_prefix
    · simp only [splitLines, if_neg hc] at h
      cases hcs : splitLines cs with
      | nil => exact absurd hcs (splitLines_ne_nil cs)
      | cons l0 ls0 =>
        rw [hcs, List.cons.injEq] at h
        rcases ih hcs with ⟨t, ht⟩
        exact ⟨t, by rw [← h.1, List.cons_append, ht]⟩

theorem memSplitLinesInfixOf {s l : List Char} (h : l ∈ splitLines s) : l <:+: s := by
  induction s generalizing l with
  | nil =>
    simp only [splitLines, List.mem_singleton] at h
    exact h ▸ List.infix_refl []
  | cons c cs ih =>
    by_cases hc : c = '\n'
    · subst hc
      rw [splitLines_cons_newline, List.mem_cons] at h
      rcases h with h | h
      · exact h ▸ ⟨[], '\n' :: cs, rfl⟩
      · rcases ih h with ⟨u, v, huv⟩
        exact ⟨'\n' :: u, v, by rw [List.cons_append, List.cons_append, huv]⟩
    · simp only [splitLines, if_neg hc] at h
      cases hcs : splitLines cs with
      | nil => exact absurd hcs (splitLines_ne_nil cs)
      | cons l0 ls0 =>
        rw [hcs, List.mem_cons] at h
        rcases h with h | h
        · rcases splitLines_head_pre hcs with ⟨t, ht⟩
          exact ⟨[], t, by rw [h, List.nil_append, List.cons_append, ht]⟩
        · rcases ih (hcs ▸ List.mem_cons_of_mem l0 h) with ⟨u, v, huv⟩
          exact ⟨c :: u, v, by rw [List.cons_append, List.cons_append, huv]⟩

/-! ## Infix helpers and trimming as an infix operation -/

theorem infixOfPre {l₁ l₂ : List Char} (h : l₁ <+: l₂) : l₁ <:+: l₂ := by
  rcases h with ⟨t, ht⟩
  exact ⟨[], t, by rw [List.nil_append, ht]⟩

theorem infixOfSuf {l₁ l₂ : List Char} (h : l₁ <:+ l₂) : l₁ <:+: l₂ := by
  rcases h with ⟨u, hu⟩
  exact ⟨u, [], by rw [List.append_nil, hu]⟩

theorem dropWhileSuf (p : Char → Bool) (l : List Char) : l.dropWhile p <:+ l := by
  induction l with
  | nil => exact ⟨[], rfl⟩
  | cons c cs ih =>
    rw [List.dropWhile_cons]
    by_cases h : p c
    · simp only [h, if_true]
      rcases ih with ⟨u, hu⟩
      exact ⟨c :: u, by rw [List.cons_append, hu]⟩
    · simp only [h]
      exact ⟨[], rfl⟩

theorem trimRightPre (s : List Char) : trimRight s <+: s := by
  induction s with
  | nil => exact ⟨[], rfl⟩
  | cons c cs ih =>
    rw [trimRight_cons]
    cases htr : trimRight cs with
    | nil =>
      by_cases hsp : isGoSpace c
      · simp only [hsp, if_true]
        exact List.nil_prefix
      · simp only [hsp]
        exact ⟨cs, rfl⟩
    | cons d ds =>
      rw [htr] at ih
      rcases ih with ⟨t, ht⟩
      exact ⟨t, by rw [List.cons_append, ht]⟩

theorem trimSpaceInfixOf (s : List Char) : trimSpace s <:+: s := by
  rcases trimRightPre (trimLeft s) with ⟨t, ht⟩
  rcases dropWhileSuf isGoSpace s with ⟨u, hu⟩
  refine ⟨u, t, ?_⟩
  rw [List.append_assoc, show trimSpace s = trimRight (trimLeft s) from rfl, ht]
  exact hu

theorem takeInfixOf (n : Nat) (l : List Char) : l.take n <:+: l :=
  infixOfPre ⟨l.drop n, List.take_append_drop n l⟩

theorem dropInfixOf (n : Nat) (l : List Char) : l.drop n <:+: l :=
  infixOfSuf ⟨l.take n, List.take_append_drop n l⟩

/-! ## Comment blocks and the first occurrence search -/

theorem commentBlock_head {C : List Char}
    (h : ∀ l ∈ splitLines C, hashSpace.isPrefixOf l = true) :
    ∃ r, C = '#' :: ' ' :: r := by
  cases C with
  | nil =>
    have := h [] (by simp [splitLines])
    simp [hashSpace, List.isPrefixOf] at this
  | cons c cs =>
    by_cases hc : c = '\n'
    · subst hc
      have := h [] (by rw [splitLines_cons_newline]; exact List.mem_cons_self [] _)
      simp [hashSpace, List.isPrefixOf] at this
    · cases hcs : splitLines cs with
      | nil => exact absurd hcs (splitLines_ne_nil cs)
      | cons l0 ls0 =>
        have hm : (c :: l0) ∈ splitLines (c :: cs) := by
          simp only [splitLines, if_neg hc, hcs]
          exact List.mem_cons_self _ _
        have hp := h (c :: l0) hm
        cases l0 with
        | nil =>
          simp [hashSpace, List.isPrefixOf] at hp
        | cons d ds =>
          simp only [hashSpace, List.isPrefixOf, Bool.and_eq_true, beq_iff_eq] at hp
          obtain ⟨rfl, rfl, -⟩ := hp
          cases cs with
          | nil => simp [splitLines] at hcs
          | cons e es =>
            by_cases he : e = '\n'
            · subst he
              rw [splitLines_cons_newline, List.cons.injEq] at hcs
              exact absurd hcs.1.symm (by simp)
            · simp only [splitLines, if_neg he] at hcs
              cases hes : splitLines es with
              | nil => exact absurd hes (splitLines_ne_nil es)
              | cons l1 ls1 =>
                rw [hes, List.cons.injEq] at hcs
                obtain ⟨h1, -⟩ := hcs
                cases h1
                exact ⟨es, rfl⟩

theorem indexOfSub_of_pre_drop {needle hay : List Char} {k : Nat}
    (h : needle.isPrefixOf (hay.drop k) = true) :
    ∃ i ≤ k, indexOfSub needle hay = some i := by
  induction k generalizing hay with
  | zero =>
    rw [List.drop_zero] at h
    cases hay with
    | nil => exact ⟨0, Nat.le_refl 0, by simp [indexOfSub, h]⟩
    | cons c t => exact ⟨0, Nat.le_refl 0, by simp [indexOfSub, h]⟩
  | succ k ih =>
    cases hay with
    | nil =>
      rw [List.drop_nil] at h
      exact ⟨0, Nat.zero_le _, by simp [indexOfSub, h]⟩
    | cons c t =>
      by_cases h0 : needle.isPrefixOf (c :: t) = true
      · exact ⟨0, Nat.zero_le _, by simp [indexOfSub, h0]⟩
      · rw [List.drop_succ_cons] at h
        rcases ih h with ⟨i, hik, hi⟩
        exact ⟨i + 1, Nat.succ_le_succ hik, by simp [indexOfSub, h0, hi]⟩

/-! ## Case-by-case unfolding of the branch-prefix injection -/

theorem pbn_tt (m t b : List Char) (hb : b ≠ [])
    (hh : (['#']).isPrefixOf (trimSpace m) = true)
    (hp : (trimSpace (goSprintf1 t b)).isPrefixOf ('\n' :: '\n' :: trimSpace m) = true) :
    prependBranchName m t b = ('\n' :: '\n' :: trimSpace m) ++ ['\n', '\n'] := by
  simp [prependBranchName, if_neg hb, hh, hp]

theorem pbn_tf (m t b : List Char) (hb : b ≠ [])
    (hh : (['#']).isPrefixOf (trimSpace m) = true)
    (hp : (trimSpace (goSprintf1 t b)).isPrefixOf ('\n' :: '\n' :: trimSpace m) = false) :
    prependBranchName m t b =
      goSprintf1 t b ++ [' '] ++ ('\n' :: '\n' :: trimSpace m) ++ ['\n', '\n'] := by
  simp [prependBranchName, if_neg hb, hh, hp]

theorem pbn_ft (m t b : List Char) (hb : b ≠ [])
    (hh : (['#']).isPrefixOf (trimSpace m) = false)
    (hp : (trimSpace (goSprintf1 t b)).isPrefixOf (trimSpace m) = true) :
    prependBranchName m t b = trimSpace m ++ ['\n', '\n'] := by
  simp [prependBranchName, if_neg hb, hh, hp]

theorem pbn_ff (m t b : List Char) (hb : b ≠ [])
    (hh : (['#']).isPrefixOf (trimSpace m) = false)
    (hp : (trimSpace (goSprintf1 t b)).isPrefixOf (trimSpace m) = false) :
    prependBranchName m t b =
      goSprintf1 t b ++ [' '] ++ trimSpace m ++ ['\n', '\n'] := by
  simp [prependBranchName, if_neg hb, hh, hp]

/-- C10: for every message and template and every non-empty branch, the
output of `prependBranchName` ends with exactly one newline followed by
one blank line: it is `X ++ "\n\n"` where `X` does not end in a newline,
in both the prefix-added and the prefix-already-present branches. -/
theorem c10_trailing_blank (m t b : List Char) (hb : b ≠ []) :
    ∃ X, prependBranchName m t b = X ++ ['\n', '\n'] ∧
      ∀ c, X.getLast? = some c → c ≠ '\n' := by
  have hlast : trimSpace m = [] ∨
      ∃ e, (trimSpace m).getLast? = some e ∧ isGoSpace e = false :=
    trimRight_last (trimLeft m)
  have hne_of_sp : ∀ e : Char, isGoSpace e = false → e ≠ '\n' := by
    intro e he hcon
    rw [hcon] at he
    exact absurd he (by decide)
  by_cases hh : (['#']).isPrefixOf (trimSpace m) = true
  · rcases isPre_hash_iff.mp hh with ⟨r, hr⟩
    rcases hlast with h0 | ⟨e, he, hesp⟩
    · rw [hr] at h0
      exact absurd h0 (by simp)
    · have heT : ('\n' :: '\n' :: trimSpace m).getLast? = some e :=
        getLast_append_of_ne_nil (['\n', '\n']) he
      by_cases hp : (trimSpace (goSprintf1 t b)).isPrefixOf
          ('\n' :: '\n' :: trimSpace m) = true
      · refine ⟨'\n' :: '\n' :: trimSpace m, pbn_tt m t b hb hh hp, ?_⟩
        intro c hc
        rw [heT] at hc
        cases hc
        exact hne_of_sp e hesp
      · refine ⟨goSprintf1 t b ++ [' '] ++ ('\n' :: '\n' :: trimSpace m), ?_, ?_⟩
        · exact pbn_tf m t b hb hh (by simp only [Bool.not_eq_true] at hp; exact hp)
        · intro c hc
          rw [getLast_append_of_ne_nil (goSprintf1 t b ++ [' ']) heT] at hc
          cases hc
          exact hne_of_sp e hesp
  · have hh' : (['#']).isPrefixOf (trimSpace m) = false := by
      simp only [Bool.not_eq_true] at hh; exact hh
    by_cases hp : (trimSpace (goSprintf1 t b)).isPrefixOf (trimSpace m) = true
    · refine ⟨trimSpace m, pbn_ft m t b hb hh' hp, ?_⟩
      rcases hlast with h0 | ⟨e, he, hesp⟩
      · intro c hc
        rw [h0] at hc
        simp at hc
      · intro c hc
        rw [he] at hc
        cases hc
        exact hne_of_sp e hesp
    · refine ⟨goSprintf1 t b ++ [' '] ++ trimSpace m, ?_, ?_⟩
      · exact pbn_ff m t b hb hh' (by simp only [Bool.not_eq_true] at hp; exact hp)
      · rcases hlast with h0 | ⟨e, he, hesp⟩
        · intro c hc
          rw [h0, List.append_nil] at hc
          rw [getLast_append_of_ne_nil (goSprintf1 t b) (show ([' ']).getLast? = some ' ' from rfl)] at hc
          cases hc
          decide
        · intro c hc
          rw [getLast_append_of_ne_nil (goSprintf1 t b ++ [' ']) he] at hc
          cases hc
          exact hne_of_sp e hesp

/-- C10 witness: instantiating the trailing-blank-line normalization at
the message `hi`, template `[%s]` and branch `x`. -/
theorem c10_trailing_blank_witness :
    ∃ X, prependBranchName (("hi").toList) tmplStd (("x").toList) = X ++ ['\n', '\n'] ∧
      ∀ c, X.getLast? = some c → c ≠ '\n' :=
  c10_trailing_blank (("hi").toList) tmplStd (("x").toList) (by decide)

/-! ## Stability of the branch-prefix injection on its own output -/

theorem trimRight_append_body (x t0 : List Char) (ht0 : trimRight t0 = t0)
    (hne : t0 ≠ []) : trimRight (x ++ t0) = x ++ t0 := by
  rw [trimRight_append_of_ne_nil x t0 (by rw [ht0]; exact hne), ht0]

theorem trimSpace_c_body (c : Char) (x t0 z : List Char)
    (hc : isGoSpace c = false) (ht0 : trimRight t0 = t0) (hne : t0 ≠ [])
    (hz : c :: z = x ++ t0) :
    trimSpace ((c :: z) ++ ['\n', '\n']) = c :: z := by
  rw [trimSpace, trimLeft_append_head _ _ hc,
    trimRight_append_of_eq_nil _ _ (by decide), hz,
    trimRight_append_body x t0 ht0 hne]

theorem pbn_stable (R t b : List Char) (hb : b ≠ [])
    (w : List Char)
    (hsp_eq : trimSpace (goSprintf1 t b) = goSprintf1 t b)
    (hts : trimSpace R = goSprintf1 t b ++ w)
    (hhash : (['#']).isPrefixOf (goSprintf1 t b ++ w) = false)
    (hR : R = (goSprintf1 t b ++ w) ++ ['\n', '\n']) :
    prependBranchName R t b = R := by
  have hp : (trimSpace (goSprintf1 t b)).isPrefixOf (trimSpace R) = true := by
    rw [hsp_eq, hts]
    exact isPre_append_self _ _
  have hh2 : (['#']).isPrefixOf (trimSpace R) = false := by rw [hts]; exact hhash
  rw [pbn_ft R t b hb hh2 hp, hts, hR]

/-- C1 amended: branch-prefix injection is idempotent provided the
trimmed message is non-empty and the formatted prefix is non-empty,
carries no leading or trailing whitespace, and does not start with `#`
(for the empty trimmed message the space the first pass inserts after
the prefix is trimmed away by the second pass, and a prefix with
leading whitespace or a leading `#` never matches its own output). -/
theorem c1_idempotent_amended (m t b : List Char)
    (hne : goSprintf1 t b ≠ [])
    (hsp1 : isGoSpace ((goSprintf1 t b).headD ' ') = false)
    (hsp2 : (goSprintf1 t b).headD ' ' ≠ '#')
    (htr : trimRight (goSprintf1 t b) = goSprintf1 t b)
    (hm : trimSpace m ≠ []) :
    prependBranchName (prependBranchName m t b) t b = prependBranchName m t b := by
  by_cases hb : b = []
  · subst hb
    simp [prependBranchName]
  · cases hspc : goSprintf1 t b with
    | nil => exact absurd hspc hne
    | cons c cs =>
      rw [hspc] at hsp1 hsp2 htr
      simp only [List.headD_cons] at hsp1 hsp2
      have hQ : trimSpace (goSprintf1 t b) = goSprintf1 t b := by
        rw [hspc, trimSpace, trimLeft_cons_of_not _ hsp1, htr]
      have htr0 : trimRight (trimSpace m) = trimSpace m := trimRight_idem (trimLeft m)
      have hc_nl : c ≠ '\n' := by
        intro h
        rw [h] at hsp1
        exact absurd hsp1 (by decide)
      have hhash_gen : ∀ w : List Char, (['#']).isPrefixOf (goSprintf1 t b ++ w) = false := by
        intro w
        rw [hspc, List.cons_append]
        exact isPre_cons_of_ne [] (cs ++ w) (Ne.symm hsp2)
      by_cases hh : (['#']).isPrefixOf (trimSpace m) = true
      · -- the trimmed message is itself a comment block
        have hp1 : (trimSpace (goSprintf1 t b)).isPrefixOf
            ('\n' :: '\n' :: trimSpace m) = false := by
          rw [hQ, hspc]
          exact isPre_cons_of_ne cs ('\n' :: trimSpace m) hc_nl
        rw [pbn_tf m t b hb hh hp1]
        refine pbn_stable _ t b hb (' ' :: '\n' :: '\n' :: trimSpace m) hQ ?_ (hhash_gen _) ?_
        · have hz1 : goSprintf1 t b ++ [' '] ++ ('\n' :: '\n' :: trimSpace m) =
              c :: (cs ++ ' ' :: '\n' :: '\n' :: trimSpace m) := by
            rw [hspc]; simp
          have hz2 : c :: (cs ++ ' ' :: '\n' :: '\n' :: trimSpace m) =
              (c :: cs ++ [' ', '\n', '\n']) ++ trimSpace m := by
            simp
          calc trimSpace (goSprintf1 t b ++ [' '] ++ ('\n' :: '\n' :: trimSpace m) ++ ['\n', '\n'])
              = trimSpace ((c :: (cs ++ ' ' :: '\n' :: '\n' :: trimSpace m)) ++ ['\n', '\n']) := by
                rw [hz1]
            _ = c :: (cs ++ ' ' :: '\n' :: '\n' :: trimSpace m) :=
                trimSpace_c_body c _ (trimSpace m) _ hsp1 htr0 hm hz2
            _ = goSprintf1 t b ++ ' ' :: '\n' :: '\n' :: trimSpace m := by
                rw [hspc]; simp
        · rw [hspc]; simp
      · -- the trimmed message is an ordinary body
        have hh' : (['#']).isPrefixOf (trimSpace m) = false := by
          simp only [Bool.not_eq_true] at hh; exact hh
        by_cases hp : (trimSpace (goSprintf1 t b)).isPrefixOf (trimSpace m) = true
        · -- the prefix is already present
          rcases isPreIffPre.mp (by rw [hQ] at hp; exact hp) with ⟨u, hu⟩
          rw [pbn_ft m t b hb hh' hp]
          refine pbn_stable _ t b hb u hQ ?_ (hhash_gen _) ?_
          · have hz : c :: (cs ++ u) = [] ++ trimSpace m := by
              rw [List.nil_append, ← hu, hspc, List.cons_append]
            calc trimSpace (trimSpace m ++ ['\n', '\n'])
                = trimSpace ((c :: (cs ++ u)) ++ ['\n', '\n']) := by
                  rw [← hu, hspc, List.cons_append]
              _ = c :: (cs ++ u) :=
                  trimSpace_c_body c [] (trimSpace m) _ hsp1 htr0 hm hz
              _ = goSprintf1 t b ++ u := by rw [hspc, List.cons_append]
          · rw [hu]
        · -- the prefix is added
          have hp' : (trimSpace (goSprintf1 t b)).isPrefixOf (trimSpace m) = false := by
            simp only [Bool.not_eq_true] at hp; exact hp
          rw [pbn_ff m t b hb hh' hp']
          refine pbn_stable _ t b hb (' ' :: trimSpace m) hQ ?_ (hhash_gen _) ?_
          · have hz1 : goSprintf1 t b ++ [' '] ++ trimSpace m =
                c :: (cs ++ ' ' :: trimSpace m) := by
              rw [hspc]; simp
            have hz2 : c :: (cs ++ ' ' :: trimSpace m) =
                (c :: cs ++ [' ']) ++ trimSpace m := by
              simp
            calc trimSpace (goSprintf1 t b ++ [' '] ++ trimSpace m ++ ['\n', '\n'])
                = trimSpace ((c :: (cs ++ ' ' :: trimSpace m)) ++ ['\n', '\n']) := by
                  rw [hz1]
              _ = c :: (cs ++ ' ' :: trimSpace m) :=
                  trimSpace_c_body c _ (trimSpace m) _ hsp1 htr0 hm hz2
              _ = goSprintf1 t b ++ ' ' :: trimSpace m := by rw [hspc]; simp
          · rw [hspc]; simp

/-- C1 witness: instantiating the amended idempotence theorem at the
message `hi`, the standard template `[%s]` and the branch `x`. -/
theorem c1_idempotent_amended_witness :
    prependBranchName (prependBranchName (("hi").toList) tmplStd (("x").toList))
        tmplStd (("x").toList) =
      prependBranchName (("hi").toList) tmplStd (("x").toList) :=
  c1_idempotent_amended (("hi").toList) tmplStd (("x").toList)
    (by decide) (by decide) (by decide) (by decide) (by decide)

/-! ## Preservation of a trailing comment block -/

theorem trimLeft_append_nil (b t : List Char) (h : trimLeft b = []) :
    trimLeft (b ++ t) = trimLeft t := by
  induction b with
  | nil => rfl
  | cons c cs ih =>
    by_cases hc : isGoSpace c
    · rw [List.cons_append]
      simp only [trimLeft, List.dropWhile_cons, hc, if_true] at h ⊢
      exact ih h
    · rw [trimLeft_cons_of_not cs (by simpa using hc)] at h
      exact absurd h (by simp)

theorem trimLeft_append_eq (b t d : List Char) (h : trimLeft b = d) (hd : d ≠ []) :
    trimLeft (b ++ t) = d ++ t := by
  induction b with
  | nil => exact absurd h.symm (by simpa using hd)
  | cons c cs ih =>
    by_cases hc : isGoSpace c
    · rw [List.cons_append]
      simp only [trimLeft, List.dropWhile_cons, hc, if_true] at h ⊢
      exact ih h
    · rw [trimLeft_cons_of_not cs (by simpa using hc)] at h
      rw [← h, List.cons_append,
        trimLeft_cons_of_not (cs ++ t) (by simpa using hc)]

theorem trimSpace_append_block (b C : List Char)
    (hC : ∃ r, C = '#' :: ' ' :: r) (htr : trimRight C = C) :
    ∃ b1, trimSpace (b ++ C) = b1 ++ C := by
  rcases hC with ⟨r, rfl⟩
  cases hlb : trimLeft b with
  | nil =>
    refine ⟨[], ?_⟩
    rw [trimSpace, trimLeft_append_nil b _ hlb,
      trimLeft_cons_of_not _ (by decide), htr, List.nil_append]
  | cons d ds =>
    refine ⟨d :: ds, ?_⟩
    rw [trimSpace, trimLeft_append_eq b _ (d :: ds) hlb (by simp),
      trimRight_append_body (d :: ds) _ htr (by simp)]

theorem suffix_trimRight_wrap (Y C : List Char) (htr : trimRight C = C) (hne : C ≠ [])
    (out : List Char) (hout : out = (Y ++ C) ++ ['\n', '\n']) :
    C <:+ trimRight out := by
  rw [hout, trimRight_append_of_eq_nil _ _ (by decide),
    trimRight_append_body Y C htr hne]
  exact List.suffix_append Y C

theorem suffix_trimRight_plain (Y C : List Char) (htr : trimRight C = C) (hne : C ≠ [])
    (out : List Char) (hout : out = Y ++ C) :
    C <:+ trimRight out := by
  rw [hout, trimRight_append_body Y C htr hne]
  exact List.suffix_append Y C

/-- C3 amended: if the message is a body followed by a block `C` of
lines all beginning with `# `, with no trailing whitespace on the last
line, then the comment block survives verbatim as a trailing contiguous
block (up to the normalized trailing blank): `C` is a suffix of the
whitespace-right-trimmed output of `prependBranchName` always, and of
`appendCoauthorMarkup` provided the trailer-stripping pass leaves the
message unchanged (a trailer match may otherwise swallow comment text
through a `>` inside the block). -/
theorem c3_comment_preserved_amended (b C t br co : List Char)
    (hlines : ∀ l ∈ splitLines C, hashSpace.isPrefixOf l = true)
    (htr : trimRight C = C) :
    C <:+ trimRight (prependBranchName (b ++ C) t br) ∧
    (stripCoauthorLines (b ++ C) = b ++ C →
      C <:+ trimRight (appendCoauthorMarkup (b ++ C) co)) := by
  rcases commentBlock_head hlines with ⟨r, hCr⟩
  have hCne : C ≠ [] := by rw [hCr]; simp
  constructor
  · by_cases hbr : br = []
    · subst hbr
      have hid : prependBranchName (b ++ C) t [] = b ++ C := by
        simp [prependBranchName]
      rw [hid, trimRight_append_body b C htr hCne]
      exact List.suffix_append b C
    · obtain ⟨b1, ht0⟩ := trimSpace_append_block b C ⟨r, hCr⟩ htr
      by_cases hh : (['#']).isPrefixOf (trimSpace (b ++ C)) = true
      · by_cases hp : (trimSpace (goSprintf1 t br)).isPrefixOf
            ('\n' :: '\n' :: trimSpace (b ++ C)) = true
        · rw [pbn_tt _ t br hbr hh hp]
          exact suffix_trimRight_wrap ('\n' :: '\n' :: b1) C htr hCne _
            (by rw [ht0]; simp)
        · rw [pbn_tf _ t br hbr hh (by simp only [Bool.not_eq_true] at hp; exact hp)]
          exact suffix_trimRight_wrap
            ((goSprintf1 t br ++ [' ', '\n', '\n']) ++ b1) C htr hCne _
            (by rw [ht0]; simp)
      · have hh' : (['#']).isPrefixOf (trimSpace (b ++ C)) = false := by
          simp only [Bool.not_eq_true] at hh; exact hh
        by_cases hp : (trimSpace (goSprintf1 t br)).isPrefixOf (trimSpace (b ++ C)) = true
        · rw [pbn_ft _ t br hbr hh' hp]
          exact suffix_trimRight_wrap b1 C htr hCne _ (by rw [ht0])
        · rw [pbn_ff _ t br hbr hh' (by simp only [Bool.not_eq_true] at hp; exact hp)]
          exact suffix_trimRight_wrap ((goSprintf1 t br ++ [' ']) ++ b1) C htr hCne _
            (by rw [ht0]; simp)
  · intro hstrip
    by_cases hco : co = []
    · simp only [appendCoauthorMarkup, if_pos hco]
      rw [trimRight_append_body b C htr hCne]
      exact List.suffix_append b C
    · obtain ⟨b1, ht0⟩ := trimSpace_append_block b C ⟨r, hCr⟩ htr
      have hfound : hashSpace.isPrefixOf ((b1 ++ C).drop b1.length) = true := by
        rw [List.drop_left]
        exact isPreIffPre.mpr ⟨r, by rw [hCr]; rfl⟩
      obtain ⟨i, hile, hidx⟩ := indexOfSub_of_pre_drop hfound
      simp only [appendCoauthorMarkup, if_neg hco, hstrip, ht0, hidx]
      rw [List.drop_append_of_le_length hile]
      exact suffix_trimRight_plain
        (trimSpace (List.take i (b1 ++ C)) ++
          '\n' :: '\n' :: (trimSpace co ++ '\n' :: '\n' :: List.drop i b1)) C htr hCne _
        (by simp)

/-- C2 amended: stripping removes every leftmost line-start match of the
trailer pattern, each extending only through its first `>`; remnants
past that `>` or indented trailer copies can survive it. Provided the
trimmed co-author block consists of distinct non-empty lines none of
which still occurs as a substring of the stripped-and-trimmed message
residue — as holds when every trailer occurrence in the message is a
whole line ending at its first `>` — the output of `injectCoauthors`
contains each supplied trailer line exactly once. -/
theorem count_one_of_nodup {α : Type _} [BEq α] [LawfulBEq α] {a : α} {d : List α}
    (hn : d.Nodup) (hm : a ∈ d) : d.count a = 1 := by
  induction d with
  | nil => simp at hm
  | cons b d ih =>
    rw [List.nodup_cons] at hn
    rw [List.count_cons]
    rcases List.mem_cons.mp hm with rfl | hmem
    · rw [List.count_eq_zero.mpr hn.1, beq_self_eq_true]
      simp
    · have hne : (b == a) = false := beq_eq_false_iff_ne.mpr (fun h => hn.1 (h ▸ hmem))
      rw [ih hn.2 hmem, hne]
      simp

theorem c2_dedup_amended (m co : List Char)
    (hco : co ≠ [])
    (hnodup : (splitLines (trimSpace co)).Nodup)
    (hlines : ∀ l ∈ splitLines (trimSpace co), l ≠ [])
    (hclean : ∀ l ∈ splitLines (trimSpace co),
      ¬ l <:+: trimSpace (stripCoauthorLines m)) :
    ∀ l ∈ splitLines (trimSpace co),
      (splitLines (appendCoauthorMarkup m co)).count l = 1 := by
  intro l hl
  have hlne : l ≠ [] := hlines l hl
  have h0 : (([] : List Char) == l) = false := beq_eq_false_iff_ne.mpr (Ne.symm hlne)
  have hcount_co : (splitLines (trimSpace co)).count l = 1 :=
    count_one_of_nodup hnodup hl
  have hzero : ∀ x : List Char, x <:+: trimSpace (stripCoauthorLines m) →
      (splitLines x).count l = 0 := by
    intro x hx
    rw [List.count_eq_zero]
    intro hmem
    exact hclean l hl ((memSplitLinesInfixOf hmem).trans hx)
  cases hidx : indexOfSub hashSpace (trimSpace (stripCoauthorLines m)) with
  | some i =>
    have hgm : (splitLines (trimSpace
        (List.take i (trimSpace (stripCoauthorLines m))))).count l = 0 :=
      hzero _ ((trimSpaceInfixOf _).trans (takeInfixOf _ _))
    have hcm : (splitLines
        (List.drop i (trimSpace (stripCoauthorLines m)))).count l = 0 :=
      hzero _ (dropInfixOf _ _)
    simp only [appendCoauthorMarkup, if_neg hco, hidx]
    rw [splitLines_append_newline, splitLines_cons_newline,
      splitLines_append_newline, splitLines_cons_newline]
    simp only [List.count_append, List.count_cons, h0, hgm, hcm, hcount_co]
    simp
  | none =>
    have hcl : (splitLines (trimSpace (stripCoauthorLines m))).count l = 0 :=
      hzero _ (List.infix_refl _)
    simp only [appendCoauthorMarkup, if_neg hco, hidx]
    rw [splitLines_append_newline, splitLines_cons_newline,
      splitLines_append_newline, splitLines_cons_newline]
    simp only [List.count_append, List.count_cons, h0, hcl, hcount_co, splitLines]
    simp

/-- The body of the comment-preservation witness message. -/
def bodyW : List Char := ("fix stuff\n\n").toList

/-- The trailing two-line comment block of the witness message. -/
def commentW : List Char := ("# please edit\n# lines").toList

/-- C3 witness: instantiating the amended comment-preservation theorem
at a two-line comment block, the standard template, branch `x` and a
well-formed co-author block; both hook operations keep the block as a
trailing suffix. -/
theorem c3_comment_preserved_amended_witness :
    commentW <:+ trimRight (prependBranchName (bodyW ++ commentW) tmplStd (("x").toList)) ∧
    commentW <:+ trimRight (appendCoauthorMarkup (bodyW ++ commentW) coZoe) :=
  ⟨(c3_comment_preserved_amended bodyW commentW tmplStd (("x").toList) coZoe
      (by decide) (by decide)).1,
   (c3_comment_preserved_amended bodyW commentW tmplStd (("x").toList) coZoe
      (by decide) (by decide)).2 (by decide)⟩

/-- The message of the de-duplication witness: a body plus one
well-formed trailer left by a previous hook run. -/
def msgW : List Char := ("did stuff\n\nCo-authored-by: Zoe <z@s>\n").toList

/-- The trailer re-supplied by the de-duplication witness. -/
def trailerW : List Char := ("Co-authored-by: Zoe <z@s>").toList

/-- C2 witness: instantiating the amended de-duplication theorem at a
message already carrying the trailer; the output contains the
re-supplied trailer line exactly once. -/
theorem c2_dedup_amended_witness :
    (splitLines (appendCoauthorMarkup msgW trailerW)).count trailerW = 1 :=
  c2_dedup_amended msgW trailerW (by decide) (by decide) (by decide) (by decide)
    trailerW (by decide)
